import Mathlib

/-!
# Verification of `AnimationFrameOrder`
  (src/cpp/open3d/visualization/visualizer/O3DVisualizer.cpp, lines 93-124)

`AnimationFrameOrder` keeps a `std::vector<double> values_` that is ordered
in increasing value, and offers `AddValue`, `RemoveValue`, `GetFrameForValue`
and `GetNumberOfFrames`.  We embed the class shallowly: the state is the
list of stored values, each member function becomes a Lean function on that
state.

The C++ value type is `double`.  The class only ever compares values with
`<`, `==` and `!=`; IEEE comparisons on (non-NaN) doubles embed into a
linear order, which we model with `ℚ`.  `size_t` results are modelled as
`Nat`, with the single negative-to-unsigned conversion (`return -1;`)
modelled explicitly at the 64-bit word width.
-/

namespace AnimationFrameOrder

/-- C++ `double` order tags; the code only uses `<` / `==` / `!=` on them,
so they are modelled by the linear order `ℚ` (NaN is outside the model). -/
abbrev Value := ℚ

/-- `std::lower_bound(values_.begin(), values_.end(), order)` as an index:
on a range partitioned by `(· < order)` — which every sorted range is, and
the invariant of the vector keeps it sorted — `std::lower_bound` returns the
first position whose element is not less than `order`, i.e. the length of
the initial run of elements `< order`. -/
def lowerBound : List Value → Value → Nat
  | [], _ => 0
  | x :: xs, order => if x < order then lowerBound xs order + 1 else 0

/-- ```cpp
void AddValue(double order) {
    auto it = std::lower_bound(values_.begin(), values_.end(), order);
    if (it == values_.end()) {  // not in list; larger than anything in it
        values_.push_back(order);
    } else if (*it != order) {  // not in list; less than an existing value
        values_.insert(it, order);
    }  // else: already exists in list; do nothing
}
``` -/
def AddValue (values : List Value) (order : Value) : List Value :=
  match values[lowerBound values order]? with
  | none => values ++ [order]
  | some x =>
    if x ≠ order then values.insertIdx (lowerBound values order) order
    else values

/-- ```cpp
void RemoveValue(double order) {
    auto it = std::lower_bound(values_.begin(), values_.end(), order);
    if (it != values_.end()) {
        values_.erase(it);
    }
}
```
Note the code erases whatever `lower_bound` points at, with no
`*it == order` check. -/
def RemoveValue (values : List Value) (order : Value) : List Value :=
  if lowerBound values order < values.length then
    values.eraseIdx (lowerBound values order)
  else values

/-- Width of `size_t` on the (64-bit) target platform. -/
def wordSize : Nat := 64

/-- `return -1;` from a function whose return type is `size_t`:
`-1` converted to the unsigned 64-bit type, i.e. `-1 mod 2^64`. -/
def sentinel : Nat := ((-1 : Int) % (2 : Int) ^ wordSize).toNat

/-- ```cpp
size_t GetFrameForValue(double order) {
    auto it = std::lower_bound(values_.begin(), values_.end(), order);
    if (it != values_.end()) {
        return (it - values_.begin());
    } else {
        return -1;
    }
}
``` -/
def GetFrameForValue (values : List Value) (order : Value) : Nat :=
  if lowerBound values order < values.length then lowerBound values order
  else sentinel

/-- `size_t GetNumberOfFrames() const { return values_.size(); }` -/
def GetNumberOfFrames (values : List Value) : Nat := values.length

/-- States of `values_` reachable from the freshly constructed (empty)
object through the mutating interface of the class. -/
inductive Reachable : List Value → Prop
  | empty : Reachable []
  | add (s : List Value) (v : Value) : Reachable s → Reachable (AddValue s v)
  | remove (s : List Value) (v : Value) : Reachable s → Reachable (RemoveValue s v)

/-! ## Structural equations for the three `lower_bound`-based operations -/

theorem AddValue_nil (v : Value) : AddValue [] v = [v] := rfl

theorem AddValue_cons (x : Value) (xs : List Value) (v : Value) :
    AddValue (x :: xs) v =
      if x < v then x :: AddValue xs v
      else if x = v then x :: xs
      else v :: x :: xs := by
  by_cases hx : x < v
  · simp only [AddValue, lowerBound, if_pos hx, List.getElem?_cons_succ]
    cases h : xs[lowerBound xs v]? with
    | none => simp [h]
    | some y =>
      by_cases hy : y = v
      · simp [h, hy]
      · simp [h, hy, List.insertIdx_succ_cons]
  · simp only [AddValue, lowerBound, if_neg hx, List.getElem?_cons_zero]
    by_cases hxv : x = v
    · simp [hxv]
    · simp [hxv, List.insertIdx_zero]

theorem RemoveValue_nil (v : Value) : RemoveValue [] v = [] := rfl

theorem RemoveValue_cons (x : Value) (xs : List Value) (v : Value) :
    RemoveValue (x :: xs) v =
      if x < v then x :: RemoveValue xs v else xs := by
  by_cases hx : x < v
  · simp only [RemoveValue, lowerBound, if_pos hx, List.length_cons]
    by_cases hlt : lowerBound xs v < xs.length
    · simp [Nat.succ_lt_succ hlt, hlt, List.eraseIdx]
    · rw [if_neg (by omega), if_neg hlt]
  · simp [RemoveValue, lowerBound, hx, List.eraseIdx]

theorem GetFrameForValue_cons (x : Value) (xs : List Value) (v : Value) :
    GetFrameForValue (x :: xs) v =
      if x < v then
        (if lowerBound xs v < xs.length then GetFrameForValue xs v + 1
         else sentinel)
      else 0 := by
  by_cases hx : x < v
  · simp only [GetFrameForValue, lowerBound, if_pos hx, List.length_cons]
    by_cases hlt : lowerBound xs v < xs.length
    · simp [hlt, Nat.succ_lt_succ hlt]
    · rw [if_neg (by omega), if_neg hlt]
  · simp [GetFrameForValue, lowerBound, hx]

/-! ## Membership and sortedness invariants -/

theorem mem_AddValue (s : List Value) (v y : Value) :
    y ∈ AddValue s v ↔ y ∈ s ∨ y = v := by
  induction s with
  | nil => simp [AddValue_nil]
  | cons x xs ih =>
    rw [AddValue_cons]
    by_cases hx : x < v
    · simp only [if_pos hx, List.mem_cons, ih]
      tauto
    · by_cases hxv : x = v
      · rw [if_neg hx, if_pos hxv]
        subst hxv
        simp only [List.mem_cons]
        tauto
      · rw [if_neg hx, if_neg hxv]
        simp only [List.mem_cons]
        tauto

theorem mem_of_mem_RemoveValue (s : List Value) (v y : Value) :
    y ∈ RemoveValue s v → y ∈ s := by
  induction s with
  | nil => rw [RemoveValue_nil]; exact id
  | cons x xs ih =>
    rw [RemoveValue_cons]
    by_cases hx : x < v
    · rw [if_pos hx]
      simp only [List.mem_cons]
      rintro (h | h)
      · exact Or.inl h
      · exact Or.inr (ih h)
    · rw [if_neg hx]
      exact List.mem_cons_of_mem x

theorem sorted_AddValue (s : List Value) (v : Value)
    (hs : s.Sorted (· < ·)) : (AddValue s v).Sorted (· < ·) := by
  induction s with
  | nil => simp [AddValue_nil]
  | cons x xs ih =>
    rw [List.sorted_cons] at hs
    obtain ⟨hx_all, hxs⟩ := hs
    rw [AddValue_cons]
    by_cases hx : x < v
    · rw [if_pos hx, List.sorted_cons]
      refine ⟨fun y hy => ?_, ih hxs⟩
      rcases (mem_AddValue xs v y).1 hy with h | h
      · exact hx_all y h
      · exact h ▸ hx
    · by_cases hxv : x = v
      · rw [if_neg hx, if_pos hxv, List.sorted_cons]
        exact ⟨hx_all, hxs⟩
      · rw [if_neg hx, if_neg hxv, List.sorted_cons]
        have hvx : v < x := lt_of_le_of_ne (not_lt.1 hx) fun h => hxv h.symm
        refine ⟨fun y hy => ?_, ?_⟩
        · rcases List.mem_cons.1 hy with h | h
          · exact h ▸ hvx
          · exact hvx.trans (hx_all y h)
        · rw [List.sorted_cons]
          exact ⟨hx_all, hxs⟩

theorem sorted_RemoveValue (s : List Value) (v : Value)
    (hs : s.Sorted (· < ·)) : (RemoveValue s v).Sorted (· < ·) := by
  induction s with
  | nil => simp [RemoveValue_nil]
  | cons x xs ih =>
    rw [List.sorted_cons] at hs
    obtain ⟨hx_all, hxs⟩ := hs
    rw [RemoveValue_cons]
    by_cases hx : x < v
    · rw [if_pos hx, List.sorted_cons]
      exact ⟨fun y hy => hx_all y (mem_of_mem_RemoveValue xs v y hy), ih hxs⟩
    · rw [if_neg hx]
      exact hxs

theorem Reachable.sorted {s : List Value} (h : Reachable s) :
    s.Sorted (· < ·) := by
  induction h with
  | empty => exact List.sorted_nil
  | add s v _ ih => exact sorted_AddValue s v ih
  | remove s v _ ih => exact sorted_RemoveValue s v ih

/-! ## The rank returned by `GetFrameForValue` on stored values -/

theorem lowerBound_eq_countP (s : List Value) (v : Value)
    (hs : s.Sorted (· < ·)) :
    lowerBound s v = s.countP fun x => decide (x < v) := by
  induction s with
  | nil => rfl
  | cons x xs ih =>
    rw [List.sorted_cons] at hs
    obtain ⟨hx_all, hxs⟩ := hs
    by_cases hx : x < v
    · simp [lowerBound, hx, List.countP_cons, ih hxs]
    · have hzero : (xs.countP fun x => decide (x < v)) = 0 := by
        rw [List.countP_eq_zero]
        intro y hy
        simp only [decide_eq_true_eq]
        exact fun hyv =>
          (hx_all y hy).asymm (lt_of_lt_of_le hyv (not_lt.1 hx))
      simp [lowerBound, hx, List.countP_cons, hzero]

theorem countP_lt_length_of_mem (s : List Value) (v : Value) (hv : v ∈ s) :
    (s.countP fun x => decide (x < v)) < s.length := by
  refine Nat.lt_of_le_of_ne (List.countP_le_length _) fun heq => ?_
  have := (List.countP_eq_length.1 heq) v hv
  simp only [decide_eq_true_eq] at this
  exact lt_irrefl v this

theorem GetFrameForValue_of_mem (s : List Value) (v : Value)
    (hs : s.Sorted (· < ·)) (hv : v ∈ s) :
    GetFrameForValue s v = s.countP fun x => decide (x < v) := by
  have h1 := lowerBound_eq_countP s v hs
  have h2 : lowerBound s v < s.length := by
    rw [h1]
    exact countP_lt_length_of_mem s v hv
  rw [GetFrameForValue, if_pos h2, h1]

theorem AddValue_of_mem (s : List Value) (v : Value)
    (hs : s.Sorted (· < ·)) (hv : v ∈ s) : AddValue s v = s := by
  induction s with
  | nil => cases hv
  | cons x xs ih =>
    rw [List.sorted_cons] at hs
    obtain ⟨hx_all, hxs⟩ := hs
    rw [AddValue_cons]
    by_cases hx : x < v
    · have hvxs : v ∈ xs := by
        rcases List.mem_cons.1 hv with h | h
        · rw [h] at hx
          exact absurd hx (lt_irrefl x)
        · exact h
      rw [if_pos hx, ih hxs hvxs]
    · have hxv : x = v := by
        rcases List.mem_cons.1 hv with h | h
        · exact h.symm
        · exact absurd (hx_all v h) hx
      rw [if_neg hx, if_pos hxv]

/-! ## Stability of the count of smaller values under operations on larger
values -/

theorem countP_AddValue_of_lt (s : List Value) (v w : Value) (hvw : v < w) :
    ((AddValue s w).countP fun x => decide (x < v)) =
      s.countP fun x => decide (x < v) := by
  induction s with
  | nil =>
    rw [AddValue_nil]
    simp [List.countP_cons, not_lt.2 hvw.le]
  | cons x xs ih =>
    rw [AddValue_cons]
    by_cases hx : x < w
    · rw [if_pos hx]
      simp [List.countP_cons, ih]
    · by_cases hxw : x = w
      · rw [if_neg hx, if_pos hxw]
      · rw [if_neg hx, if_neg hxw]
        simp [List.countP_cons, not_lt.2 hvw.le]

theorem countP_RemoveValue_of_lt (s : List Value) (v w : Value)
    (hvw : v < w) :
    ((RemoveValue s w).countP fun x => decide (x < v)) =
      s.countP fun x => decide (x < v) := by
  induction s with
  | nil => rw [RemoveValue_nil]
  | cons x xs ih =>
    rw [RemoveValue_cons]
    by_cases hx : x < w
    · rw [if_pos hx]
      simp [List.countP_cons, ih]
    · rw [if_neg hx]
      have hxv : ¬ x < v := fun h => hx (h.trans hvw)
      simp [List.countP_cons, hxv]

theorem mem_RemoveValue_of_lt (s : List Value) (v w : Value)
    (hs : s.Sorted (· < ·)) (hv : v ∈ s) (hvw : v < w) :
    v ∈ RemoveValue s w := by
  induction s with
  | nil => cases hv
  | cons x xs ih =>
    rw [List.sorted_cons] at hs
    obtain ⟨hx_all, hxs⟩ := hs
    rw [RemoveValue_cons]
    by_cases hx : x < w
    · rw [if_pos hx]
      rcases List.mem_cons.1 hv with h | h
      · rw [h]
        exact List.mem_cons_self x _
      · exact List.mem_cons_of_mem x (ih hxs h)
    · rw [if_neg hx]
      rcases List.mem_cons.1 hv with h | h
      · rw [h] at hvw
        exact absurd hvw hx
      · exact h

/-! ## Order independence of the insert-only state -/

theorem sorted_eq_of_mem_iff :
    ∀ s t : List Value, s.Sorted (· < ·) → t.Sorted (· < ·) →
      (∀ y, y ∈ s ↔ y ∈ t) → s = t
  | [], [], _, _, _ => rfl
  | [], y :: t, _, _, h =>
    absurd ((h y).2 (List.mem_cons_self y t)) (List.not_mem_nil y)
  | x :: s, [], _, _, h =>
    absurd ((h x).1 (List.mem_cons_self x s)) (List.not_mem_nil x)
  | x :: s, y :: t, hs, ht, h => by
    rw [List.sorted_cons] at hs ht
    obtain ⟨hxs, hs⟩ := hs
    obtain ⟨hyt, ht⟩ := ht
    have hxy : x = y := by
      rcases List.mem_cons.1 ((h x).1 (List.mem_cons_self x s)) with h1 | h1
      · exact h1
      · rcases List.mem_cons.1 ((h y).2 (List.mem_cons_self y t)) with h2 | h2
        · exact h2.symm
        · exact absurd ((hyt x h1).trans (hxs y h2)) (lt_irrefl y)
    subst hxy
    have htail : ∀ z, z ∈ s ↔ z ∈ t := by
      intro z
      constructor
      · intro hz
        rcases List.mem_cons.1 ((h z).1 (List.mem_cons_of_mem x hz)) with h1 | h1
        · rw [h1] at hz
          exact absurd (hxs x hz) (lt_irrefl x)
        · exact h1
      · intro hz
        rcases List.mem_cons.1 ((h z).2 (List.mem_cons_of_mem x hz)) with h1 | h1
        · rw [h1] at hz
          exact absurd (hyt x hz) (lt_irrefl x)
        · exact h1
    rw [sorted_eq_of_mem_iff s t hs ht htail]

theorem AddValue_comm_of_sorted (s : List Value) (a b : Value)
    (hs : s.Sorted (· < ·)) :
    AddValue (AddValue s a) b = AddValue (AddValue s b) a := by
  apply sorted_eq_of_mem_iff
  · exact sorted_AddValue _ b (sorted_AddValue _ a hs)
  · exact sorted_AddValue _ a (sorted_AddValue _ b hs)
  · intro y
    simp only [mem_AddValue]
    tauto

/-! ## The sentinel branch -/

theorem lowerBound_eq_length_of_forall_lt (s : List Value) (v : Value)
    (h : ∀ x ∈ s, x < v) : lowerBound s v = s.length := by
  induction s with
  | nil => rfl
  | cons x xs ih =>
    simp only [lowerBound, if_pos (h x (List.mem_cons_self x xs)),
      List.length_cons]
    rw [ih fun y hy => h y (List.mem_cons_of_mem x hy)]

/-! ## Sortedness is preserved along any insert-only run -/

theorem sorted_foldl_AddValue (ops : List Value) :
    ∀ s : List Value, s.Sorted (· < ·) →
      (ops.foldl AddValue s).Sorted (· < ·) := by
  induction ops with
  | nil => exact fun s hs => hs
  | cons v ops ih => exact fun s hs => ih _ (sorted_AddValue s v hs)

/-! ## The claims -/

/-- C1. The claim says `GetFrameForValue` returns the not-found sentinel
whenever the queried value is not stored.  It does not: in the reachable
state `[2]` the value `1` is not stored, yet the query returns `0` (the
rank of `2`), because `lower_bound` lands on the first element not less
than the query and the code never compares it with the query.  The
sentinel is returned only when the query exceeds every stored value. -/
theorem rank_query_absent_value_bug :
    (1 : Value) ∉ AddValue [] 2 ∧
      GetFrameForValue (AddValue [] 2) 1 = 0 ∧
      (0 : Nat) ≠ sentinel := by decide

/-- C2. The claim says `RemoveValue` of an absent value leaves the stored
sequence unchanged.  It does not: in the reachable state `[2]` the value
`1` is absent, yet `RemoveValue(1)` erases `2` (the element `lower_bound`
points at, never compared with the query), leaving the empty sequence. -/
theorem removeValue_absent_value_bug :
    (1 : Value) ∉ AddValue [] 2 ∧
      RemoveValue (AddValue [] 2) 1 = [] := by decide

/-- C3. Starting from the empty index, after any finite sequence of
`AddValue` calls with arbitrary values, the stored sequence is strictly
increasing and contains no duplicate values. -/
theorem insert_only_states_sorted_nodup (ops : List Value) :
    (ops.foldl AddValue []).Sorted (· < ·) ∧ (ops.foldl AddValue []).Nodup := by
  have hs : (ops.foldl AddValue []).Sorted (· < ·) :=
    sorted_foldl_AddValue ops [] List.sorted_nil
  exact ⟨hs, hs.nodup⟩

/-- C4. For every reachable state and every value `v` currently stored,
`GetFrameForValue v` equals the number of stored values strictly less
than `v`.  The witness instantiates this at the state built by inserting
3, 1, 2 into the empty index, where the rank of 1 is 0 (and likewise the
ranks of 2 and 3 are 1 and 2). -/
theorem rank_eq_count_lt (s : List Value) (v : Value)
    (hs : Reachable s) (hv : v ∈ s) :
    GetFrameForValue s v = s.countP fun x => decide (x < v) :=
  GetFrameForValue_of_mem s v hs.sorted hv

/-- Witness for C4 at the state `AddValue (AddValue (AddValue [] 3) 1) 2`
(that is, after inserting 3, 1, 2) and the stored value 1, whose rank is
0. -/
theorem rank_eq_count_lt_witness :
    Reachable (AddValue (AddValue (AddValue [] 3) 1) 2) ∧
      (1 : Value) ∈ AddValue (AddValue (AddValue [] 3) 1) 2 ∧
      GetFrameForValue (AddValue (AddValue (AddValue [] 3) 1) 2) 1 =
        ((AddValue (AddValue (AddValue [] 3) 1) 2).countP
          fun x => decide (x < 1)) ∧
      GetFrameForValue (AddValue (AddValue (AddValue [] 3) 1) 2) 1 = 0 ∧
      GetFrameForValue (AddValue (AddValue (AddValue [] 3) 1) 2) 2 = 1 ∧
      GetFrameForValue (AddValue (AddValue (AddValue [] 3) 1) 2) 3 = 2 := by
  have hr : Reachable (AddValue (AddValue (AddValue [] 3) 1) 2) :=
    Reachable.add _ 2 (Reachable.add _ 1 (Reachable.add _ 3 Reachable.empty))
  exact ⟨hr, by decide, rank_eq_count_lt _ 1 hr (by decide), by decide,
    by decide, by decide⟩

/-- C5. `AddValue` is idempotent on stored values: for every reachable
state and every value `v` already stored, `AddValue v` leaves the stored
sequence — and in particular `GetNumberOfFrames` — unchanged. -/
theorem addValue_idem (s : List Value) (v : Value)
    (hs : Reachable s) (hv : v ∈ s) :
    AddValue s v = s ∧
      GetNumberOfFrames (AddValue s v) = GetNumberOfFrames s := by
  have h := AddValue_of_mem s v hs.sorted hv
  exact ⟨h, by rw [h]⟩

/-- Witness for C5 at the state `[1, 2]` (built by inserting 1 then 2) and
the duplicate insert of 2. -/
theorem addValue_idem_witness :
    Reachable (AddValue (AddValue [] 1) 2) ∧
      (2 : Value) ∈ AddValue (AddValue [] 1) 2 ∧
      (AddValue (AddValue (AddValue [] 1) 2) 2 = AddValue (AddValue [] 1) 2 ∧
        GetNumberOfFrames (AddValue (AddValue (AddValue [] 1) 2) 2) =
          GetNumberOfFrames (AddValue (AddValue [] 1) 2)) := by
  have hr : Reachable (AddValue (AddValue [] 1) 2) :=
    Reachable.add _ 2 (Reachable.add _ 1 Reachable.empty)
  exact ⟨hr, by decide, addValue_idem _ 2 hr (by decide)⟩

/-- C6. The claim says that inserting a fresh value and then removing it
restores `GetNumberOfFrames` and makes `GetFrameForValue` return the
not-found sentinel.  The count is indeed restored, but in the reachable
state `[2]`, after `AddValue(1)` then `RemoveValue(1)` the query
`GetFrameForValue(1)` returns `0` (the rank of the remaining `2`), not
the sentinel. -/
theorem insert_then_remove_bug :
    GetNumberOfFrames (RemoveValue (AddValue (AddValue [] 2) 1) 1) =
        GetNumberOfFrames (AddValue [] 2) ∧
      (1 : Value) ∉ RemoveValue (AddValue (AddValue [] 2) 1) 1 ∧
      GetFrameForValue (RemoveValue (AddValue (AddValue [] 2) 1) 1) 1 = 0 ∧
      (0 : Nat) ≠ sentinel := by decide

/-- C7. For every reachable state and every stored value `v`, the rank of
`v` is unchanged by an `AddValue` or a `RemoveValue` of any value `w`
greater than `v`. -/
theorem rank_stable_under_greater (s : List Value) (v w : Value)
    (hs : Reachable s) (hv : v ∈ s) (hvw : v < w) :
    GetFrameForValue (AddValue s w) v = GetFrameForValue s v ∧
      GetFrameForValue (RemoveValue s w) v = GetFrameForValue s v := by
  have hsort := hs.sorted
  constructor
  · rw [GetFrameForValue_of_mem _ v (sorted_AddValue s w hsort)
        ((mem_AddValue s w v).2 (Or.inl hv)),
      GetFrameForValue_of_mem s v hsort hv, countP_AddValue_of_lt s v w hvw]
  · rw [GetFrameForValue_of_mem _ v (sorted_RemoveValue s w hsort)
        (mem_RemoveValue_of_lt s v w hsort hv hvw),
      GetFrameForValue_of_mem s v hsort hv,
      countP_RemoveValue_of_lt s v w hvw]

/-- Witness for C7 at the state `[1, 3]` (built by inserting 1 then 3),
the stored value 1, and the larger value 2: inserting or removing 2 leaves
the rank of 1 unchanged. -/
theorem rank_stable_under_greater_witness :
    Reachable (AddValue (AddValue [] 1) 3) ∧
      (1 : Value) ∈ AddValue (AddValue [] 1) 3 ∧
      (1 : Value) < 2 ∧
      (GetFrameForValue (AddValue (AddValue (AddValue [] 1) 3) 2) 1 =
          GetFrameForValue (AddValue (AddValue [] 1) 3) 1 ∧
        GetFrameForValue (RemoveValue (AddValue (AddValue [] 1) 3) 2) 1 =
          GetFrameForValue (AddValue (AddValue [] 1) 3) 1) := by
  have hr : Reachable (AddValue (AddValue [] 1) 3) :=
    Reachable.add _ 3 (Reachable.add _ 1 Reachable.empty)
  exact ⟨hr, by decide, by decide,
    rank_stable_under_greater _ 1 2 hr (by decide) (by decide)⟩

/-- C8. The claim says all four operations are total and that operations
on absent values are no-ops or yield the not-found sentinel.  The
operations are indeed total (they are plain functions with no failing
branch), but on the reachable state `[2]` with the absent value `1`,
`RemoveValue` is not a no-op (it erases `2`) and `GetFrameForValue` yields
`0`, a value strictly below the stored count, rather than the sentinel. -/
theorem absent_ops_totality_bug :
    RemoveValue (AddValue [] 2) 1 ≠ AddValue [] 2 ∧
      GetFrameForValue (AddValue [] 2) 1 ≠ sentinel ∧
      GetFrameForValue (AddValue [] 2) 1 <
        GetNumberOfFrames (AddValue [] 2) := by decide

/-- C9. Whenever the queried value is strictly greater than every stored
value, `GetFrameForValue` returns `(size_t)(-1) = 2^64 - 1`, the maximum
value of the unsigned 64-bit return type; under the physical bound that
the stored count is at most the sentinel, this result is never a valid
rank (it is not below the stored count). -/
theorem rank_above_all_sentinel (s : List Value) (v : Value)
    (hgt : ∀ x ∈ s, x < v)
    (hcap : GetNumberOfFrames s ≤ sentinel) :
    GetFrameForValue s v = 2 ^ 64 - 1 ∧
      sentinel = 2 ^ 64 - 1 ∧
      ¬ GetFrameForValue s v < GetNumberOfFrames s := by
  have hlb := lowerBound_eq_length_of_forall_lt s v hgt
  have hsent : GetFrameForValue s v = sentinel := by
    rw [GetFrameForValue, hlb, if_neg (lt_irrefl s.length)]
  have hval : sentinel = 2 ^ 64 - 1 := by decide
  refine ⟨by rw [hsent, hval], hval, ?_⟩
  rw [hsent]
  exact fun hlt => (not_le.2 hlt) hcap

/-- Witness for C9 at the state `[1, 2]` and the query 3, which exceeds
both stored values. -/
theorem rank_above_all_sentinel_witness :
    (∀ x ∈ AddValue (AddValue [] 1) 2, x < (3 : Value)) ∧
      GetNumberOfFrames (AddValue (AddValue [] 1) 2) ≤ sentinel ∧
      (GetFrameForValue (AddValue (AddValue [] 1) 2) 3 = 2 ^ 64 - 1 ∧
        sentinel = 2 ^ 64 - 1 ∧
        ¬ GetFrameForValue (AddValue (AddValue [] 1) 2) 3 <
            GetNumberOfFrames (AddValue (AddValue [] 1) 2)) :=
  ⟨by decide, by decide, rank_above_all_sentinel _ 3 (by decide) (by decide)⟩

/-- C10. `AddValue` calls commute: from every reachable state, inserting
`a` then `b` yields the same stored sequence as inserting `b` then `a`;
hence the sequence built from a collection of inserted values does not
depend on the insertion order. -/
theorem addValue_comm (s : List Value) (a b : Value) (hs : Reachable s) :
    AddValue (AddValue s a) b = AddValue (AddValue s b) a :=
  AddValue_comm_of_sorted s a b hs.sorted

/-- Witness for C10 at the state `[2]` with the inserts 1 and 3. -/
theorem addValue_comm_witness :
    Reachable (AddValue [] 2) ∧
      AddValue (AddValue (AddValue [] 2) 1) 3 =
        AddValue (AddValue (AddValue [] 2) 3) 1 := by
  have hr : Reachable (AddValue [] 2) := Reachable.add _ 2 Reachable.empty
  exact ⟨hr, addValue_comm _ 1 3 hr⟩

end AnimationFrameOrder
